import Mathlib

/-!
Verification of the reconciliation and usage-history core of `app.py`
(pharmaceutical stock reconciliation / order calculation application).

Embedding conventions:
* CSV cell values (which in Python are `str` or `None` from `csv.DictReader.get`)
  are modelled as `Option String`.
* Python `float` quantities are modelled as exact rationals `ℚ`; `math.sqrt`
  is modelled by the exact real square root.  All claim-relevant arithmetic
  (signed deltas, means, variances) is therefore exact.
* Python `dict` (insertion-ordered, last-write-wins on assignment) is modelled
  as an association list `List (String × α)` with in-place update (`dictInsert`).
* The filesystem and the JSON text layer are external collaborators; they are
  modelled by explicit parameters or by a JSON tree type (see `Json` below).
-/

set_option autoImplicit false
set_option maxRecDepth 4000

/-- Python `str.strip()` (line 65 and elsewhere of `app.py`): remove leading
and trailing whitespace characters. -/
def pytrim (s : String) : String :=
  ⟨((s.data.dropWhile Char.isWhitespace).reverse.dropWhile Char.isWhitespace).reverse⟩

/-- The two `str.replace` calls of `to_number` (line 65 of `app.py`): delete
every ASCII comma and every full-width comma from the string. -/
def stripCommas (s : String) : String :=
  ⟨s.data.filter (fun c => !(c == ',' || c == '，'))⟩

/-- Numeric value of a decimal digit character. -/
def digitVal (c : Char) : ℕ := c.toNat - '0'.toNat

/-- Value of a digit string, most significant digit first. -/
def digitsToNat (ds : List Char) : ℕ := ds.foldl (fun a c => 10 * a + digitVal c) 0

/-- Split off a maximal leading run of decimal digits. -/
def takeDigits (cs : List Char) : List Char × List Char :=
  (cs.takeWhile Char.isDigit, cs.dropWhile Char.isDigit)

/-- Consume an optional leading sign; returns `true` for a minus sign. -/
def parseSign : List Char → Bool × List Char
  | '-' :: rest => (true, rest)
  | '+' :: rest => (false, rest)
  | cs => (false, cs)

/-- Parse the exponent part following `e`/`E`: an optional sign and a
non-empty digit run that must end the string. -/
def parseExpTail (cs : List Char) : Option ℤ :=
  let p := parseSign cs
  let d := takeDigits p.2
  if d.1 = [] ∨ d.2 ≠ [] then none
  else some (if p.1 then -(digitsToNat d.1 : ℤ) else (digitsToNat d.1 : ℤ))

/-- Parse the mantissa: digits with an optional decimal point; at least one
digit must be present on one side of the point. -/
def parseMantissa (cs : List Char) : Option (ℚ × List Char) :=
  let ip := takeDigits cs
  match ip.2 with
  | '.' :: cs2 =>
    let fp := takeDigits cs2
    if ip.1 = [] ∧ fp.1 = [] then none
    else some ((digitsToNat ip.1 : ℚ) + (digitsToNat fp.1 : ℚ) / (10 : ℚ) ^ fp.1.length, fp.2)
  | _ => if ip.1 = [] then none else some ((digitsToNat ip.1 : ℚ), ip.2)

/-- Model of Python `float(s)` on an already-stripped string, over the decimal
float literal grammar `[sign] (digits [. digits] | . digits) [(e|E) [sign] digits]`.
The special values `inf`/`nan` and underscore digit grouping have no exact
rational value and do not occur in the tabular data; they are outside the
modelled grammar (such strings simply fail to parse, like any other
unparsable cell). -/
def parseFloatAux (cs : List Char) : Option ℚ :=
  let sp := parseSign cs
  match parseMantissa sp.2 with
  | none => none
  | some mc =>
    let signed : ℚ := if sp.1 then -mc.1 else mc.1
    match mc.2 with
    | [] => some signed
    | 'e' :: rest => (parseExpTail rest).map (fun k => signed * (10 : ℚ) ^ k)
    | 'E' :: rest => (parseExpTail rest).map (fun k => signed * (10 : ℚ) ^ k)
    | _ => none

/-- Model of Python `float(s)` for a whole string. -/
def parseFloatQ (s : String) : Option ℚ := parseFloatAux s.data

/-- `to_number` (lines 61–71 of `app.py`): comma-tolerant numeric coercion.
`none` models Python `None` (a missing cell); any failure yields `0.0`.
The function is total — no exception ever escapes (the Python `except
ValueError` branch is the `Option.getD 0` here). -/
def to_number : Option String → ℚ
  | none => 0
  | some v =>
    let s := pytrim (stripCommas v)
    if s = "" then 0 else (parseFloatQ s).getD 0

/-- C9: numeric coercion never raises: for every input value, comma characters
(ASCII and full-width) are removed and surrounding whitespace trimmed, after
which a missing, blank, or unparsable value yields `0.0` and a parsable value
yields its numeric value.  Totality of `to_number` models "never raises". -/
theorem c9_to_number_lenient_total (v : Option String) :
    (v = none → to_number v = 0)
    ∧ (∀ raw, v = some raw →
        (pytrim (stripCommas raw) = "" → to_number v = 0)
        ∧ (parseFloatQ (pytrim (stripCommas raw)) = none → to_number v = 0)
        ∧ (∀ q, parseFloatQ (pytrim (stripCommas raw)) = some q → to_number v = q)) := by
  refine ⟨fun h => by subst h; rfl, fun raw hv => ?_⟩
  subst hv
  refine ⟨fun h => ?_, fun h => ?_, fun q h => ?_⟩
  · simp [to_number, h]
  · by_cases hb : pytrim (stripCommas raw) = ""
    · simp [to_number, hb]
    · simp [to_number, hb, h]
  · by_cases hb : pytrim (stripCommas raw) = ""
    · rw [hb] at h
      have he : parseFloatQ "" = none := by decide
      rw [he] at h
      simp at h
    · simp [to_number, hb, h]

/-- Concrete instance of C9: a thousands-separated, whitespace-padded decimal
value is coerced to its exact numeric value. -/
theorem c9_witness : to_number (some " 1,234.5 ") = 2469 / 2 := by
  have h := (c9_to_number_lenient_total (some " 1,234.5 ")).2 " 1,234.5 " rfl
  refine h.2.2 (2469 / 2) ?_
  have hs : pytrim (stripCommas " 1,234.5 ") = "1234.5" := by decide
  rw [hs]
  simp +decide [parseFloatQ, parseFloatAux, parseMantissa, takeDigits, parseSign,
    digitsToNat, digitVal]
  norm_num

/-! ## Python dictionaries as association lists

A Python `dict` keyed by strings is insertion-ordered; assigning to an
existing key replaces the value in place, assigning to a fresh key appends
at the end, `del` removes the key.  `AListD α` models this; all stores built
by the program have `Nodup` keys. -/

/-- Model of a Python string-keyed dict. -/
abbrev AListD (α : Type) : Type := List (String × α)

/-- Dict lookup `d[k]` / `d.get(k)`: the value at the first (with nodup keys,
unique) occurrence of `k`. -/
def alookup {α : Type} : AListD α → String → Option α
  | [], _ => none
  | p :: ps, k => if p.1 = k then some p.2 else alookup ps k

/-- Dict assignment `d[k] = v`: replace in place when the key exists,
append at the end otherwise. -/
def dictInsert {α : Type} : AListD α → String → α → AListD α
  | [], k, v => [(k, v)]
  | p :: ps, k, v => if p.1 = k then (k, v) :: ps else p :: dictInsert ps k v

/-- Dict deletion `del d[k]`. -/
def eraseKey {α : Type} : AListD α → String → AListD α
  | [], _ => []
  | p :: ps, k => if p.1 = k then ps else p :: eraseKey ps k

/-- The keys of a dict, in order. -/
def keysOf {α : Type} (d : AListD α) : List String := d.map Prod.fst


@[simp] theorem keysOf_nil {α : Type} : keysOf ([] : AListD α) = [] := rfl

@[simp] theorem keysOf_cons {α : Type} (p : String × α) (ps : AListD α) :
    keysOf (p :: ps) = p.1 :: keysOf ps := rfl

theorem alookup_dictInsert {α : Type} (d : AListD α) (k : String) (v : α) (c : String) :
    alookup (dictInsert d k v) c = if c = k then some v else alookup d c := by
  induction d with
  | nil =>
    simp only [dictInsert, alookup]
    by_cases h : c = k
    · subst h; simp
    · have hk : ¬ k = c := fun he => h he.symm
      simp [h, hk]
  | cons p ps ih =>
    simp only [dictInsert]
    by_cases h : p.1 = k
    · subst h
      simp only [if_pos rfl, alookup]
      by_cases hc : p.1 = c
      · subst hc; simp
      · have hc' : ¬ c = p.1 := fun he => hc he.symm
        simp [hc, hc']
    · simp only [if_neg h, alookup, ih]
      by_cases hc : p.1 = c
      · have hck : ¬ c = k := fun he => h (by rw [hc, he])
        simp [hc, hck]
      · simp [hc]

theorem keysOf_dictInsert {α : Type} (d : AListD α) (k : String) (v : α) :
    keysOf (dictInsert d k v) = if k ∈ keysOf d then keysOf d else keysOf d ++ [k] := by
  induction d with
  | nil => simp [dictInsert]
  | cons p ps ih =>
    by_cases h : p.1 = k
    · simp [dictInsert, h]
    · have hk : ¬ k = p.1 := fun he => h he.symm
      simp only [dictInsert, if_neg h, keysOf_cons, ih, List.mem_cons, hk, false_or]
      by_cases hm : k ∈ keysOf ps
      · simp [hm]
      · simp [hm]

theorem mem_keysOf_dictInsert {α : Type} (d : AListD α) (k : String) (v : α) (c : String) :
    c ∈ keysOf (dictInsert d k v) ↔ c ∈ keysOf d ∨ c = k := by
  rw [keysOf_dictInsert]
  by_cases hm : k ∈ keysOf d
  · simp only [if_pos hm]
    constructor
    · exact Or.inl
    · rintro (h | rfl)
      · exact h
      · exact hm
  · simp [hm]

theorem nodup_keysOf_dictInsert {α : Type} (d : AListD α) (k : String) (v : α)
    (h : (keysOf d).Nodup) : (keysOf (dictInsert d k v)).Nodup := by
  rw [keysOf_dictInsert]
  by_cases hm : k ∈ keysOf d
  · simpa [hm] using h
  · rw [if_neg hm]
    refine List.Nodup.append h (List.nodup_singleton k) ?_
    intro a ha hb
    simp only [List.mem_singleton] at hb
    subst hb
    exact hm ha

theorem alookup_eq_none_iff {α : Type} (d : AListD α) (k : String) :
    alookup d k = none ↔ k ∉ keysOf d := by
  induction d with
  | nil => simp [alookup]
  | cons p ps ih =>
    by_cases h : p.1 = k
    · simp [alookup, h]
    · have hk : ¬ k = p.1 := fun he => h he.symm
      simp [alookup, h, ih, hk]

theorem mem_of_alookup_eq_some {α : Type} (d : AListD α) (k : String) (v : α)
    (h : alookup d k = some v) : (k, v) ∈ d := by
  induction d with
  | nil => simp [alookup] at h
  | cons p ps ih =>
    by_cases hp : p.1 = k
    · simp only [alookup, if_pos hp] at h
      have hpv : p = (k, v) := by
        cases p
        simp only [Prod.mk.injEq]
        simp only [Option.some.injEq] at h
        exact ⟨hp, h⟩
      rw [hpv] at *
      exact List.mem_cons_self _ _
    · simp only [alookup, if_neg hp] at h
      exact List.mem_cons_of_mem _ (ih h)

theorem mem_dictInsert {α : Type} (d : AListD α) (k : String) (v : α) (p : String × α)
    (h : p ∈ dictInsert d k v) : p ∈ d ∨ p = (k, v) := by
  induction d with
  | nil =>
    simp [dictInsert] at h
    exact Or.inr h
  | cons q qs ih =>
    by_cases hq : q.1 = k
    · simp only [dictInsert, if_pos hq, List.mem_cons] at h
      rcases h with h | h
      · exact Or.inr h
      · exact Or.inl (List.mem_cons_of_mem _ h)
    · simp only [dictInsert, if_neg hq, List.mem_cons] at h
      rcases h with h | h
      · exact Or.inl (h ▸ List.mem_cons_self _ _)
      · rcases ih h with h' | h'
        · exact Or.inl (List.mem_cons_of_mem _ h')
        · exact Or.inr h'

theorem mem_eraseKey {α : Type} (d : AListD α) (k : String) (p : String × α)
    (h : p ∈ eraseKey d k) : p ∈ d := by
  induction d with
  | nil => simp [eraseKey] at h
  | cons q qs ih =>
    by_cases hq : q.1 = k
    · simp only [eraseKey, if_pos hq] at h
      exact List.mem_cons_of_mem _ h
    · simp only [eraseKey, if_neg hq, List.mem_cons] at h
      rcases h with h | h
      · exact h ▸ List.mem_cons_self _ _
      · exact List.mem_cons_of_mem _ (ih h)

/-! ## Snapshot ingestion (`App._run_calculation`, lines 686–697)

Each snapshot row is reduced to the fields the calculation reads.  `InvRow`
models an inventory CSV row: `rawCode` is the raw cell of the レセコンコード
column, `name` the 薬品名 cell, `unit` the 単位 cell, `stock` the raw 在庫数
cell.  `SchRow` models a schedule row: `rawCode` the 薬剤ｺｰﾄﾞ cell, `name`
the 薬剤名 cell, `price` the raw 薬価 cell, `qty` the raw 使用予定量 cell. -/

structure InvRow where
  rawCode : String
  name : String
  unit : String
  stock : Option String
deriving DecidableEq

structure SchRow where
  rawCode : String
  name : String
  price : Option String
  qty : Option String
deriving DecidableEq

/-- One iteration of the dictionary-building loops (lines 687–690 and
694–697 of `app.py`): trim the code cell, drop the row when it is empty,
otherwise assign `d[code] = row` (last write wins). -/
def buildStep {α : Type} (key : α → String) (d : AListD α) (r : α) : AListD α :=
  if pytrim (key r) = "" then d else dictInsert d (pytrim (key r)) r

/-- The code→row dictionary built from a snapshot. -/
def buildDict {α : Type} (key : α → String) (rows : List α) : AListD α :=
  rows.foldl (buildStep key) []

def invDict (invRows : List InvRow) : AListD InvRow := buildDict InvRow.rawCode invRows

def schDict (schRows : List SchRow) : AListD SchRow := buildDict SchRow.rawCode schRows

theorem alookup_buildDict_aux {α : Type} (key : α → String) :
    ∀ (rows : List α) (d : AListD α) (c : String), c ≠ "" →
      alookup (rows.foldl (buildStep key) d) c =
        rows.foldl (fun acc r => if pytrim (key r) = c then some r else acc) (alookup d c) := by
  intro rows
  induction rows with
  | nil => intro d c _; rfl
  | cons r rs ih =>
    intro d c hc
    rw [List.foldl_cons, List.foldl_cons, ih _ c hc]
    congr 1
    unfold buildStep
    by_cases h : pytrim (key r) = ""
    · rw [if_pos h]
      have hne : ¬ pytrim (key r) = c := fun he => hc (he.symm.trans h)
      rw [if_neg hne]
    · rw [if_neg h, alookup_dictInsert]
      by_cases h2 : pytrim (key r) = c
      · rw [if_pos h2.symm, if_pos h2]
      · have h2' : ¬ c = pytrim (key r) := fun he => h2 he.symm
        rw [if_neg h2', if_neg h2]

/-- Duplicate-code policy of the ingestion loops: a lookup returns the LAST
row of the snapshot whose trimmed code equals `c` (and `none` when no row
matches). -/
theorem alookup_buildDict {α : Type} (key : α → String) (rows : List α) (c : String)
    (hc : c ≠ "") :
    alookup (buildDict key rows) c =
      rows.foldl (fun acc r => if pytrim (key r) = c then some r else acc) none := by
  rw [buildDict, alookup_buildDict_aux key rows [] c hc]
  rfl

theorem mem_keysOf_buildDict_aux {α : Type} (key : α → String) :
    ∀ (rows : List α) (d : AListD α) (c : String),
      c ∈ keysOf (rows.foldl (buildStep key) d) ↔
        c ∈ keysOf d ∨ (c ≠ "" ∧ ∃ r ∈ rows, pytrim (key r) = c) := by
  intro rows
  induction rows with
  | nil => intro d c; simp
  | cons r rs ih =>
    intro d c
    rw [List.foldl_cons, ih (buildStep key d r) c]
    by_cases h : pytrim (key r) = ""
    · simp only [buildStep, if_pos h]
      constructor
      · rintro (hd | ⟨hc, x, hx, hpx⟩)
        · exact Or.inl hd
        · exact Or.inr ⟨hc, x, List.mem_cons_of_mem _ hx, hpx⟩
      · rintro (hd | ⟨hc, x, hx, hpx⟩)
        · exact Or.inl hd
        · rcases List.mem_cons.mp hx with rfl | hx'
          · exact (hc ((hpx.symm.trans h))).elim
          · exact Or.inr ⟨hc, x, hx', hpx⟩
    · simp only [buildStep, if_neg h, mem_keysOf_dictInsert]
      constructor
      · rintro ((hd | rfl) | ⟨hc, x, hx, hpx⟩)
        · exact Or.inl hd
        · exact Or.inr ⟨h, r, List.mem_cons_self _ _, rfl⟩
        · exact Or.inr ⟨hc, x, List.mem_cons_of_mem _ hx, hpx⟩
      · rintro (hd | ⟨hc, x, hx, hpx⟩)
        · exact Or.inl (Or.inl hd)
        · rcases List.mem_cons.mp hx with rfl | hx'
          · exact Or.inl (Or.inr hpx.symm)
          · exact Or.inr ⟨hc, x, hx', hpx⟩

/-- A code is a key of the snapshot dictionary iff it is non-empty and some
row's trimmed code cell equals it. -/
theorem mem_keysOf_buildDict {α : Type} (key : α → String) (rows : List α) (c : String) :
    c ∈ keysOf (buildDict key rows) ↔ c ≠ "" ∧ ∃ r ∈ rows, pytrim (key r) = c := by
  rw [buildDict, mem_keysOf_buildDict_aux]
  simp

theorem keysOf_buildDict_nodup_aux {α : Type} (key : α → String) :
    ∀ (rows : List α) (d : AListD α), (keysOf d).Nodup →
      (keysOf (rows.foldl (buildStep key) d)).Nodup := by
  intro rows
  induction rows with
  | nil => intro d h; exact h
  | cons r rs ih =>
    intro d h
    rw [List.foldl_cons]
    apply ih
    unfold buildStep
    by_cases hc : pytrim (key r) = ""
    · rwa [if_pos hc]
    · rw [if_neg hc]
      exact nodup_keysOf_dictInsert _ _ _ h

theorem keysOf_buildDict_nodup {α : Type} (key : α → String) (rows : List α) :
    (keysOf (buildDict key rows)).Nodup :=
  keysOf_buildDict_nodup_aux key rows [] (by simp)

/-! ## Reconciliation (`App._run_calculation`, lines 699–745) -/

/-- The merge key set (line 700): union of both dictionaries' key sets.
Python iterates a `set` in arbitrary order; the claims proved below are
order-independent (counts and membership), so a concrete enumeration of the
union is used. -/
def allCodes (invRows : List InvRow) (schRows : List SchRow) : List String :=
  keysOf (invDict invRows) ++
    (keysOf (schDict schRows)).filter (fun c => decide (c ∉ keysOf (invDict invRows)))

/-- `stock` (line 709): the inventory row's 在庫数 through `to_number`, else `0.0`. -/
def stockOf (invRows : List InvRow) (c : String) : ℚ :=
  match alookup (invDict invRows) c with
  | some r => to_number r.stock
  | none => 0

/-- `scheduled` (line 710): the schedule row's 使用予定量 through `to_number`, else `0.0`. -/
def schedOf (schRows : List SchRow) (c : String) : ℚ :=
  match alookup (schDict schRows) c with
  | some r => to_number r.qty
  | none => 0

/-- `price` (line 711): the schedule row's 薬価 through `to_number`, else `0.0`. -/
def priceOf (schRows : List SchRow) (c : String) : ℚ :=
  match alookup (schDict schRows) c with
  | some r => to_number r.price
  | none => 0

/-- `name` (lines 713–720): prefer the inventory row's name, else the
schedule row's name, else empty. -/
def recName (invRows : List InvRow) (schRows : List SchRow) (c : String) : String :=
  match alookup (invDict invRows) c with
  | some r => r.name
  | none =>
    match alookup (schDict schRows) c with
    | some r => r.name
    | none => ""

/-- `unit` (lines 713–720): the inventory row's unit, else empty. -/
def recUnit (invRows : List InvRow) (c : String) : String :=
  match alookup (invDict invRows) c with
  | some r => r.unit
  | none => ""

/-- `diff = stock - scheduled` (line 722): positive = surplus, negative = shortage. -/
def deltaOf (invRows : List InvRow) (schRows : List SchRow) (c : String) : ℚ :=
  stockOf invRows c - schedOf schRows c

structure SurplusEntry where
  code : String
  name : String
  unit : String
  stock : ℚ
  scheduled : ℚ
  surplus : ℚ
  price : ℚ
deriving DecidableEq

structure ShortageEntry where
  code : String
  name : String
  unit : String
  stock : ℚ
  scheduled : ℚ
  shortage : ℚ
  price : ℚ
  cost : ℚ
deriving DecidableEq

/-- Surplus branch of the loop body (lines 724–733). -/
def surplusEmit (invRows : List InvRow) (schRows : List SchRow) (c : String) :
    Option SurplusEntry :=
  if 0 < deltaOf invRows schRows c then
    some ⟨c, recName invRows schRows c, recUnit invRows c, stockOf invRows c,
      schedOf schRows c, deltaOf invRows schRows c, priceOf schRows c⟩
  else none

/-- Shortage branch of the loop body (lines 734–745); `shortage_val = abs(diff)`,
`cost = shortage_val * price`. -/
def shortageEmit (invRows : List InvRow) (schRows : List SchRow) (c : String) :
    Option ShortageEntry :=
  if deltaOf invRows schRows c < 0 then
    some ⟨c, recName invRows schRows c, recUnit invRows c, stockOf invRows c,
      schedOf schRows c, |deltaOf invRows schRows c|, priceOf schRows c,
      |deltaOf invRows schRows c| * priceOf schRows c⟩
  else none

/-- `surplus_list` as it stands at line 746 (before the presentation sort,
which only permutes entries). -/
def surplusList (invRows : List InvRow) (schRows : List SchRow) : List SurplusEntry :=
  (allCodes invRows schRows).filterMap (surplusEmit invRows schRows)

/-- `shortage_list` as it stands at line 746. -/
def shortageList (invRows : List InvRow) (schRows : List SchRow) : List ShortageEntry :=
  (allCodes invRows schRows).filterMap (shortageEmit invRows schRows)

theorem allCodes_nodup (invRows : List InvRow) (schRows : List SchRow) :
    (allCodes invRows schRows).Nodup := by
  refine List.Nodup.append (keysOf_buildDict_nodup _ _)
    (List.Nodup.filter _ (keysOf_buildDict_nodup _ _)) ?_
  intro a ha hb
  have := (List.mem_filter.mp hb).2
  simp only [decide_eq_true_eq] at this
  exact this ha

theorem mem_allCodes (invRows : List InvRow) (schRows : List SchRow) (c : String) :
    c ∈ allCodes invRows schRows ↔
      c ∈ keysOf (invDict invRows) ∨ c ∈ keysOf (schDict schRows) := by
  simp only [allCodes, List.mem_append, List.mem_filter, decide_eq_true_eq]
  tauto

theorem countP_filterMap_emit {β : Type} (f : String → Option β) (code : β → String)
    (hf : ∀ x e, f x = some e → code e = x) :
    ∀ (l : List String), l.Nodup → ∀ c,
      (l.filterMap f).countP (fun e => code e == c) =
        if c ∈ l ∧ (f c).isSome then 1 else 0 := by
  intro l
  induction l with
  | nil => intro _ c; simp
  | cons x xs ih =>
    intro hnd c
    have hx : x ∉ xs := (List.nodup_cons.mp hnd).1
    have hxs : xs.Nodup := (List.nodup_cons.mp hnd).2
    cases hfx : f x with
    | none =>
      rw [List.filterMap_cons_none hfx, ih hxs c]
      by_cases hcx : c = x
      · subst hcx
        simp [hfx, hx]
      · simp only [List.mem_cons, hcx, false_or]
    | some e =>
      have hce : code e = x := hf x e hfx
      rw [List.filterMap_cons_some hfx, List.countP_cons]
      by_cases hcx : c = x
      · subst hcx
        rw [ih hxs c]
        simp [hce, hx, hfx]
      · rw [ih hxs c]
        have : (code e == c) = false := by
          rw [hce]
          exact beq_eq_false_iff_ne.mpr (fun he => hcx he.symm)
        simp only [this, List.mem_cons, hcx, false_or]
        simp

/-- C5: when a snapshot contains several rows with the same non-empty trimmed
item code, the code→row mapping keeps the LAST such row and raises no error
(it is a total function); rows whose trimmed code is empty are dropped (a
lookup at the empty code finds nothing).  Stated for both the inventory and
the schedule dictionary of `App._run_calculation` (lines 686–697). -/
theorem c5_duplicate_codes_last_wins (invRows : List InvRow) (schRows : List SchRow)
    (c : String) (hc : c ≠ "") :
    (alookup (invDict invRows) c
        = invRows.foldl (fun acc r => if pytrim r.rawCode = c then some r else acc) none)
    ∧ (alookup (schDict schRows) c
        = schRows.foldl (fun acc r => if pytrim r.rawCode = c then some r else acc) none)
    ∧ (∀ r : InvRow, pytrim r.rawCode = c → alookup (invDict (invRows ++ [r])) c = some r)
    ∧ (∀ r : SchRow, pytrim r.rawCode = c → alookup (schDict (schRows ++ [r])) c = some r)
    ∧ alookup (invDict invRows) "" = none
    ∧ alookup (schDict schRows) "" = none := by
  refine ⟨alookup_buildDict _ _ _ hc, alookup_buildDict _ _ _ hc, ?_, ?_, ?_, ?_⟩
  · intro r hr
    simp only [invDict, buildDict, List.foldl_append, List.foldl_cons, List.foldl_nil]
    unfold buildStep
    rw [hr, if_neg hc, alookup_dictInsert, if_pos rfl]
  · intro r hr
    simp only [schDict, buildDict, List.foldl_append, List.foldl_cons, List.foldl_nil]
    unfold buildStep
    rw [hr, if_neg hc, alookup_dictInsert, if_pos rfl]
  · rw [alookup_eq_none_iff]
    intro hmem
    simp only [invDict] at hmem
    exact (mem_keysOf_buildDict _ _ _).mp hmem |>.1 rfl
  · rw [alookup_eq_none_iff]
    intro hmem
    simp only [schDict] at hmem
    exact (mem_keysOf_buildDict _ _ _).mp hmem |>.1 rfl

/-- Concrete instance of C5: two rows whose codes both trim to `A`; the
lookup returns the second (later) row. -/
theorem c5_witness :
    alookup (invDict [⟨"A ", "first", "u", some "1"⟩, ⟨" A", "second", "u", some "2"⟩]) "A"
      = some ⟨" A", "second", "u", some "2"⟩ := by
  have h := (c5_duplicate_codes_last_wins
    [⟨"A ", "first", "u", some "1"⟩, ⟨" A", "second", "u", some "2"⟩] [] "A" (by decide)).1
  rw [h]
  decide

theorem surplusEmit_code (invRows : List InvRow) (schRows : List SchRow) :
    ∀ x e, surplusEmit invRows schRows x = some e → e.code = x := by
  intro x e h
  simp only [surplusEmit] at h
  by_cases hd : 0 < deltaOf invRows schRows x
  · rw [if_pos hd] at h
    cases h
    rfl
  · rw [if_neg hd] at h
    exact Option.noConfusion h

theorem shortageEmit_code (invRows : List InvRow) (schRows : List SchRow) :
    ∀ x e, shortageEmit invRows schRows x = some e → e.code = x := by
  intro x e h
  simp only [shortageEmit] at h
  by_cases hd : deltaOf invRows schRows x < 0
  · rw [if_pos hd] at h
    cases h
    rfl
  · rw [if_neg hd] at h
    exact Option.noConfusion h

theorem surplusEmit_isSome (invRows : List InvRow) (schRows : List SchRow) (c : String) :
    (surplusEmit invRows schRows c).isSome ↔ 0 < deltaOf invRows schRows c := by
  by_cases hd : 0 < deltaOf invRows schRows c
  · simp [surplusEmit, hd]
  · simp [surplusEmit, hd]

theorem shortageEmit_isSome (invRows : List InvRow) (schRows : List SchRow) (c : String) :
    (shortageEmit invRows schRows c).isSome ↔ deltaOf invRows schRows c < 0 := by
  by_cases hd : deltaOf invRows schRows c < 0
  · simp [shortageEmit, hd]
  · simp [shortageEmit, hd]

theorem surplusList_countP (invRows : List InvRow) (schRows : List SchRow) (c : String) :
    (surplusList invRows schRows).countP (fun e => e.code == c)
      = if c ∈ allCodes invRows schRows ∧ 0 < deltaOf invRows schRows c then 1 else 0 := by
  rw [surplusList,
    countP_filterMap_emit _ _ (surplusEmit_code invRows schRows) _ (allCodes_nodup _ _) c]
  by_cases hm : c ∈ allCodes invRows schRows
  · by_cases hd : 0 < deltaOf invRows schRows c
    · rw [if_pos ⟨hm, (surplusEmit_isSome invRows schRows c).mpr hd⟩, if_pos ⟨hm, hd⟩]
    · rw [if_neg (fun h => hd ((surplusEmit_isSome invRows schRows c).mp h.2)),
        if_neg (fun h => hd h.2)]
  · rw [if_neg (fun h => hm h.1), if_neg (fun h => hm h.1)]

theorem shortageList_countP (invRows : List InvRow) (schRows : List SchRow) (c : String) :
    (shortageList invRows schRows).countP (fun e => e.code == c)
      = if c ∈ allCodes invRows schRows ∧ deltaOf invRows schRows c < 0 then 1 else 0 := by
  rw [shortageList,
    countP_filterMap_emit _ _ (shortageEmit_code invRows schRows) _ (allCodes_nodup _ _) c]
  by_cases hm : c ∈ allCodes invRows schRows
  · by_cases hd : deltaOf invRows schRows c < 0
    · rw [if_pos ⟨hm, (shortageEmit_isSome invRows schRows c).mpr hd⟩, if_pos ⟨hm, hd⟩]
    · rw [if_neg (fun h => hd ((shortageEmit_isSome invRows schRows c).mp h.2)),
        if_neg (fun h => hd h.2)]
  · rw [if_neg (fun h => hm h.1), if_neg (fun h => hm h.1)]

/-- C1: reconciliation considers every code present in either snapshot, with
stock, planned and price defaulting to `0.0` where a row is missing; with
`delta = stock - planned` it emits exactly one surplus entry when `delta > 0`,
exactly one shortage entry when `delta < 0`, and no entry when `delta = 0`;
no code appears in both lists or more than once in either list. -/
theorem c1_reconciliation_partition (invRows : List InvRow) (schRows : List SchRow)
    (c : String) :
    ((surplusList invRows schRows).countP (fun e => e.code == c)
        = if c ∈ allCodes invRows schRows ∧ 0 < deltaOf invRows schRows c then 1 else 0)
    ∧ ((shortageList invRows schRows).countP (fun e => e.code == c)
        = if c ∈ allCodes invRows schRows ∧ deltaOf invRows schRows c < 0 then 1 else 0)
    ∧ (deltaOf invRows schRows c = 0 →
        (surplusList invRows schRows).countP (fun e => e.code == c) = 0
        ∧ (shortageList invRows schRows).countP (fun e => e.code == c) = 0)
    ∧ ((surplusList invRows schRows).countP (fun e => e.code == c) = 0
        ∨ (shortageList invRows schRows).countP (fun e => e.code == c) = 0)
    ∧ (alookup (invDict invRows) c = none → stockOf invRows c = 0)
    ∧ (alookup (schDict schRows) c = none → schedOf schRows c = 0 ∧ priceOf schRows c = 0)
    ∧ (∀ e ∈ surplusList invRows schRows,
        e.surplus = deltaOf invRows schRows e.code ∧ 0 < e.surplus)
    ∧ (∀ e ∈ shortageList invRows schRows,
        e.shortage = -(deltaOf invRows schRows e.code) ∧ 0 < e.shortage)
    ∧ (c ∈ allCodes invRows schRows ↔
        c ≠ "" ∧ ((∃ r ∈ invRows, pytrim r.rawCode = c) ∨ (∃ r ∈ schRows, pytrim r.rawCode = c))) := by
  refine ⟨surplusList_countP invRows schRows c, shortageList_countP invRows schRows c,
    ?_, ?_, ?_, ?_, ?_, ?_, ?_⟩
  · intro h0
    rw [surplusList_countP, shortageList_countP]
    constructor
    · rw [if_neg (fun hx => by rw [h0] at hx; exact lt_irrefl 0 hx.2)]
    · rw [if_neg (fun hx => by rw [h0] at hx; exact lt_irrefl 0 hx.2)]
  · by_cases hd : 0 < deltaOf invRows schRows c
    · right
      rw [shortageList_countP]
      rw [if_neg (fun hx => (lt_asymm hd) hx.2)]
    · left
      rw [surplusList_countP]
      rw [if_neg (fun hx => hd hx.2)]
  · intro h
    simp only [stockOf, h]
  · intro h
    constructor
    · simp only [schedOf, h]
    · simp only [priceOf, h]
  · intro e he
    rcases List.mem_filterMap.mp he with ⟨a, _, hf⟩
    have hcode := surplusEmit_code invRows schRows a e hf
    simp only [surplusEmit] at hf
    by_cases hd : 0 < deltaOf invRows schRows a
    · rw [if_pos hd] at hf
      cases hf
      exact ⟨by rw [hcode], by simpa using hd⟩
    · rw [if_neg hd] at hf
      exact Option.noConfusion hf
  · intro e he
    rcases List.mem_filterMap.mp he with ⟨a, _, hf⟩
    have hcode := shortageEmit_code invRows schRows a e hf
    simp only [shortageEmit] at hf
    by_cases hd : deltaOf invRows schRows a < 0
    · rw [if_pos hd] at hf
      cases hf
      refine ⟨by rw [hcode]; exact abs_of_neg hd, ?_⟩
      simpa using abs_pos.mpr (ne_of_lt hd)
    · rw [if_neg hd] at hf
      exact Option.noConfusion hf
  · rw [mem_allCodes]
    simp only [invDict, schDict, mem_keysOf_buildDict]
    exact and_or_left.symm

/-- Concrete instance of C1 (the end-to-end example of the specification):
inventory stock 100 against planned 40 yields exactly one surplus entry for
the code and no shortage entry. -/
theorem c1_witness :
    ((surplusList [⟨"A001", "drugA", "box", some "100"⟩]
        [⟨"A001", "drugA", some "5", some "40"⟩]).countP (fun e => e.code == "A001") = 1)
    ∧ ((shortageList [⟨"A001", "drugA", "box", some "100"⟩]
        [⟨"A001", "drugA", some "5", some "40"⟩]).countP (fun e => e.code == "A001") = 0) := by
  have hδ : deltaOf [⟨"A001", "drugA", "box", some "100"⟩]
      [⟨"A001", "drugA", some "5", some "40"⟩] "A001"
      = to_number (some "100") - to_number (some "40") := rfl
  have h100 : to_number (some "100") = (100 : ℚ) := by decide
  have h40 : to_number (some "40") = (40 : ℚ) := by decide
  have hδ60 : deltaOf [⟨"A001", "drugA", "box", some "100"⟩]
      [⟨"A001", "drugA", some "5", some "40"⟩] "A001" = 60 := by
    rw [hδ, h100, h40]
    norm_num
  have h := c1_reconciliation_partition [⟨"A001", "drugA", "box", some "100"⟩]
    [⟨"A001", "drugA", some "5", some "40"⟩] "A001"
  constructor
  · rw [h.1, if_pos ⟨by decide, by rw [hδ60]; norm_num⟩]
  · rw [h.2.1, if_neg (fun hx => by rw [hδ60] at hx; exact absurd hx.2 (by norm_num))]

/-- C2: every shortage entry's estimated cost equals deficit × unit price,
and whenever the delta is negative (even at unit price `0`) a shortage entry
for that code is emitted with exactly that cost. -/
theorem c2_shortage_cost (invRows : List InvRow) (schRows : List SchRow) :
    (∀ e ∈ shortageList invRows schRows, e.cost = e.shortage * e.price)
    ∧ (∀ c ∈ allCodes invRows schRows, deltaOf invRows schRows c < 0 →
        ∃ e ∈ shortageList invRows schRows,
          e.code = c ∧ e.price = priceOf schRows c
            ∧ e.cost = -(deltaOf invRows schRows c) * priceOf schRows c) := by
  constructor
  · intro e he
    rcases List.mem_filterMap.mp he with ⟨a, _, hf⟩
    simp only [shortageEmit] at hf
    by_cases hd : deltaOf invRows schRows a < 0
    · rw [if_pos hd] at hf
      cases hf
      rfl
    · rw [if_neg hd] at hf
      exact Option.noConfusion hf
  · intro c hc hd
    refine ⟨⟨c, recName invRows schRows c, recUnit invRows c, stockOf invRows c,
      schedOf schRows c, |deltaOf invRows schRows c|, priceOf schRows c,
      |deltaOf invRows schRows c| * priceOf schRows c⟩, ?_, rfl, rfl, ?_⟩
    · exact List.mem_filterMap.mpr ⟨c, hc, by simp only [shortageEmit, if_pos hd]⟩
    · rw [abs_of_neg hd]

/-- Concrete instance of C2 (the end-to-end example of the specification):
stock 10 against planned 50 at unit price 2 yields a shortage entry whose
estimated cost is deficit × price. -/
theorem c2_witness :
    ∃ e ∈ shortageList [⟨"B002", "drugB", "box", some "10"⟩]
        [⟨"B002", "drugB", some "2", some "50"⟩],
      e.code = "B002"
        ∧ e.price = priceOf [⟨"B002", "drugB", some "2", some "50"⟩] "B002"
        ∧ e.cost = -(deltaOf [⟨"B002", "drugB", "box", some "10"⟩]
              [⟨"B002", "drugB", some "2", some "50"⟩] "B002")
            * priceOf [⟨"B002", "drugB", some "2", some "50"⟩] "B002" := by
  have hδ : deltaOf [⟨"B002", "drugB", "box", some "10"⟩]
      [⟨"B002", "drugB", some "2", some "50"⟩] "B002"
      = to_number (some "10") - to_number (some "50") := rfl
  have h10 : to_number (some "10") = (10 : ℚ) := by decide
  have h50 : to_number (some "50") = (50 : ℚ) := by decide
  refine (c2_shortage_cost [⟨"B002", "drugB", "box", some "10"⟩]
    [⟨"B002", "drugB", some "2", some "50"⟩]).2 "B002" (by decide) ?_
  rw [hδ, h10, h50]
  norm_num

/-! ## Usage history store (`UsageHistory`, lines 107–243)

The persisted JSON object is modelled as a `Store`: an insertion-ordered
dict from item code to an entry holding the display name and the observation
list.  `Obs` models one element of the `records` array. -/

structure Obs where
  date : String
  quantity : ℚ
deriving DecidableEq

structure Entry where
  name : String
  records : List Obs
deriving DecidableEq

abbrev Store : Type := AListD Entry

/-- The inner record-upsert of `add_records` (lines 164–173): overwrite the
quantity of the first observation at the same date in place, otherwise
append a new observation at the end. -/
def upsertObs : List Obs → String → ℚ → List Obs
  | [], d, q => [⟨d, q⟩]
  | r :: rs, d, q => if r.date = d then ⟨d, q⟩ :: rs else r :: upsertObs rs d q

/-- One iteration of the `add_records` loop (lines 154–176) for a single row:
trim the code, skip if empty, create the entry if unseen, upsert the
observation at the date, and set the display name to the new name (the
source assigns the name last, so the latest write wins). -/
def upsert (data : Store) (rawCode name : String) (qty : ℚ) (d : String) : Store :=
  let code := pytrim rawCode
  if code = "" then data
  else
    let prev : Entry := (alookup data code).getD ⟨name, []⟩
    dictInsert data code ⟨name, upsertObs prev.records d qty⟩

/-- `add_records` (lines 147–178): fold the row-upsert over a schedule batch.
The code/name/qty cells are the 薬剤ｺｰﾄﾞ/薬剤名/使用予定量 columns; the
record date defaults to today's date, which is supplied externally here. -/
def add_records (data : Store) (rows : List SchRow) (recordDate : String) : Store :=
  rows.foldl (fun acc row => upsert acc row.rawCode row.name (to_number row.qty) recordDate) data

/-- `delete_record` (lines 222–230): drop every observation at the date
(at most one under the store invariant), removing the code entirely when its
record list becomes empty. -/
def delete_record (data : Store) (code recordDate : String) : Store :=
  match alookup data code with
  | none => data
  | some e =>
    if e.records.filter (fun r => !(r.date == recordDate)) = [] then eraseKey data code
    else dictInsert data code ⟨e.name, e.records.filter (fun r => !(r.date == recordDate))⟩

/-- `clear_all` (lines 232–235). -/
def clear_all (_ : Store) : Store := []

/-- All observation dates of the store, in order, with repetitions. -/
def allDates (data : Store) : List String :=
  (data.map (fun p => p.2.records.map Obs.date)).flatten

/-- `get_record_count` (lines 237–243): the number of distinct dates across
all items' observations (a Python `set` of dates). -/
def get_record_count (data : Store) : ℕ :=
  (allDates data).toFinset.card

theorem alookup_upsert (data : Store) (rawCode name : String) (qty : ℚ) (d c : String)
    (h : pytrim rawCode ≠ "") :
    alookup (upsert data rawCode name qty d) c =
      if c = pytrim rawCode then
        some ⟨name, upsertObs (((alookup data (pytrim rawCode)).getD ⟨name, []⟩).records) d qty⟩
      else alookup data c := by
  simp only [upsert, if_neg h]
  exact alookup_dictInsert _ _ _ _

theorem upsertObs_ne_nil (rs : List Obs) (d : String) (q : ℚ) : upsertObs rs d q ≠ [] := by
  cases rs with
  | nil => simp [upsertObs]
  | cons r rs =>
    simp only [upsertObs]
    by_cases h : r.date = d
    · simp [h]
    · simp [h]

theorem upsertObs_length_of_mem (rs : List Obs) (d : String) (q : ℚ)
    (h : ∃ r ∈ rs, r.date = d) : (upsertObs rs d q).length = rs.length := by
  induction rs with
  | nil => rcases h with ⟨r, hr, _⟩; exact absurd hr (List.not_mem_nil r)
  | cons r rs ih =>
    simp only [upsertObs]
    by_cases hd : r.date = d
    · simp [hd]
    · rcases h with ⟨x, hx, hxd⟩
      rcases List.mem_cons.mp hx with rfl | hx'
      · exact absurd hxd hd
      · simp only [if_neg hd, List.length_cons]
        rw [ih ⟨x, hx', hxd⟩]

theorem upsertObs_of_not_mem (rs : List Obs) (d : String) (q : ℚ)
    (h : ¬ ∃ r ∈ rs, r.date = d) : upsertObs rs d q = rs ++ [⟨d, q⟩] := by
  induction rs with
  | nil => rfl
  | cons r rs ih =>
    simp only [upsertObs]
    by_cases hd : r.date = d
    · exact absurd ⟨r, List.mem_cons_self r rs, hd⟩ h
    · rw [if_neg hd, List.cons_append, ih (fun ⟨x, hx, hxd⟩ => h ⟨x, List.mem_cons_of_mem _ hx, hxd⟩)]

theorem countP_upsertObs (rs : List Obs) (d : String) (q : ℚ) :
    (upsertObs rs d q).countP (fun r => r.date == d) =
      if rs.countP (fun r => r.date == d) = 0 then 1 else rs.countP (fun r => r.date == d) := by
  induction rs with
  | nil => simp [upsertObs]
  | cons r rs ih =>
    simp only [upsertObs]
    by_cases hd : r.date = d
    · rw [if_pos hd]
      rw [List.countP_cons, List.countP_cons]
      simp [hd]
    · rw [if_neg hd]
      have hb : (r.date == d) = false := beq_eq_false_iff_ne.mpr hd
      rw [List.countP_cons, List.countP_cons, ih, hb]
      simp

theorem upsertObs_quantity_at (rs : List Obs) (d : String) (q : ℚ)
    (h : rs.countP (fun r => r.date == d) ≤ 1) :
    ∀ r ∈ upsertObs rs d q, r.date = d → r.quantity = q := by
  induction rs with
  | nil =>
    intro r hr _
    simp only [upsertObs, List.mem_singleton] at hr
    rw [hr]
  | cons x xs ih =>
    intro r hr hrd
    simp only [upsertObs] at hr
    by_cases hd : x.date = d
    · rw [if_pos hd] at hr
      rcases List.mem_cons.mp hr with rfl | hr'
      · rfl
      · rw [List.countP_cons] at h
        have hb : (x.date == d) = true := beq_iff_eq.mpr hd
        rw [hb] at h
        simp only [if_true] at h
        have hc0 : xs.countP (fun r => r.date == d) = 0 := by omega
        have : ¬ r.date = d := by
          intro hcon
          have := List.countP_eq_zero.mp hc0 r hr'
          simp only [beq_iff_eq] at this
          exact this hcon
        exact absurd hrd this
    · rw [if_neg hd] at hr
      rcases List.mem_cons.mp hr with rfl | hr'
      · exact absurd hrd hd
      · rw [List.countP_cons] at h
        have hb : (x.date == d) = false := beq_eq_false_iff_ne.mpr hd
        rw [hb] at h
        simp at h
        exact ih h r hr' hrd

/-- C3: upsert semantics of the usage-history store.  An empty trimmed code
is a no-op; an unseen code creates an entry with the given name and one
observation; an existing code gets its name replaced and the observation at
the same date overwritten in place (same length, no duplicate) or else a new
observation appended; consequently two upserts with the same code and date
(starting from a store with at most one observation at that date) leave
exactly one observation at the date carrying the later quantity and name. -/
theorem c3_upsert_semantics (data : Store) (rawCode n₁ n₂ : String) (q₁ q₂ : ℚ) (d : String) :
    (pytrim rawCode = "" → upsert data rawCode n₁ q₁ d = data)
    ∧ (pytrim rawCode ≠ "" → alookup data (pytrim rawCode) = none →
        alookup (upsert data rawCode n₁ q₁ d) (pytrim rawCode) = some ⟨n₁, [⟨d, q₁⟩]⟩)
    ∧ (∀ e : Entry, pytrim rawCode ≠ "" → alookup data (pytrim rawCode) = some e →
        alookup (upsert data rawCode n₁ q₁ d) (pytrim rawCode)
            = some ⟨n₁, upsertObs e.records d q₁⟩
        ∧ ((∃ r ∈ e.records, r.date = d) →
            (upsertObs e.records d q₁).length = e.records.length)
        ∧ (¬ (∃ r ∈ e.records, r.date = d) →
            upsertObs e.records d q₁ = e.records ++ [⟨d, q₁⟩]))
    ∧ (pytrim rawCode ≠ "" →
        (((alookup data (pytrim rawCode)).getD ⟨n₁, []⟩).records).countP
            (fun r => r.date == d) ≤ 1 →
        ∃ e₂ : Entry,
          alookup (upsert (upsert data rawCode n₁ q₁ d) rawCode n₂ q₂ d) (pytrim rawCode)
              = some e₂
          ∧ e₂.name = n₂
          ∧ e₂.records.countP (fun r => r.date == d) = 1
          ∧ ∀ r ∈ e₂.records, r.date = d → r.quantity = q₂) := by
  refine ⟨?_, ?_, ?_, ?_⟩
  · intro h
    simp [upsert, h]
  · intro h hn
    rw [alookup_upsert data rawCode n₁ q₁ d (pytrim rawCode) h, if_pos rfl, hn]
    rfl
  · intro e h he
    refine ⟨?_, fun hex => upsertObs_length_of_mem _ _ _ hex,
      fun hnex => upsertObs_of_not_mem _ _ _ hnex⟩
    rw [alookup_upsert data rawCode n₁ q₁ d (pytrim rawCode) h, if_pos rfl, he]
    rfl
  · intro h hcount
    have h1 := alookup_upsert data rawCode n₁ q₁ d (pytrim rawCode) h
    rw [if_pos rfl] at h1
    have h2 := alookup_upsert (upsert data rawCode n₁ q₁ d) rawCode n₂ q₂ d (pytrim rawCode) h
    rw [if_pos rfl, h1] at h2
    have hc1 : (upsertObs (((alookup data (pytrim rawCode)).getD ⟨n₁, []⟩).records) d q₁).countP
        (fun r => r.date == d) = 1 := by
      rw [countP_upsertObs]
      by_cases h0 : (((alookup data (pytrim rawCode)).getD ⟨n₁, []⟩).records).countP
          (fun r => r.date == d) = 0
      · rw [if_pos h0]
      · rw [if_neg h0]
        omega
    refine ⟨⟨n₂, upsertObs (upsertObs (((alookup data (pytrim rawCode)).getD
        ⟨n₁, []⟩).records) d q₁) d q₂⟩, h2.trans rfl, rfl, ?_, ?_⟩
    · rw [countP_upsertObs, hc1]
      simp
    · exact upsertObs_quantity_at _ d q₂ (le_of_eq hc1)

/-- Concrete instance of C3 (the overwrite example of the specification):
upsert (A, x, 10) then (A, y, 20) at the same date leaves one observation at
that date with quantity 20 and display name y. -/
theorem c3_witness :
    ∃ e₂ : Entry,
      alookup (upsert (upsert [] "A" "x" 10 "2026-01-01") "A" "y" 20 "2026-01-01") (pytrim "A")
          = some e₂
        ∧ e₂.name = "y"
        ∧ e₂.records.countP (fun r => r.date == "2026-01-01") = 1
        ∧ ∀ r ∈ e₂.records, r.date = "2026-01-01" → r.quantity = 20 :=
  (c3_upsert_semantics [] "A" "x" "y" 10 20 "2026-01-01").2.2.2 (by decide) (by decide)

/-! ## Statistics calculator (`UsageHistory.get_statistics`, lines 180–214) -/

/-- Lexicographic code-point comparison of strings, modelling the Python
string order used by `sorted(records, key=lambda r: r["date"])`. -/
def charListLe : List Char → List Char → Bool
  | [], _ => true
  | _ :: _, [] => false
  | a :: as, b :: bs =>
    if a.toNat < b.toNat then true
    else if b.toNat < a.toNat then false
    else charListLe as bs

def dateLe (a b : String) : Bool := charListLe a.data b.data

/-- The observation `sorted(records, key=date)[-1]` (lines 198–201).  Python's
sort is stable, so the last element of the sorted list is the observation
with the greatest date, preferring the latest-inserted among equal dates;
this left fold that prefers later elements on ties computes exactly that. -/
def latestOf (rs : List Obs) : Obs :=
  rs.foldl (fun best r => if dateLe best.date r.date then r else best) (rs.headD ⟨"", 0⟩)

/-- `quantities = [r["quantity"] for r in records]` (line 189). -/
def quantsOf (e : Entry) : List ℚ := e.records.map Obs.quantity

/-- `mean = sum(quantities) / n` (line 191). -/
def meanOf (qs : List ℚ) : ℚ := qs.sum / (qs.length : ℚ)

/-- `variance = sum((q - mean) ** 2 for q in quantities) / (n - 1)` (line 193). -/
def varOf (qs : List ℚ) : ℚ :=
  ((qs.map (fun q => (q - meanOf qs) ^ 2)).sum) / ((qs.length : ℚ) - 1)

/-- `stddev` (lines 192–196): `math.sqrt(variance)` when `n >= 2`, else `0.0`.
The float square root is modelled by the exact real square root. -/
noncomputable def stddevOf (qs : List ℚ) : ℝ :=
  if 2 ≤ qs.length then Real.sqrt (varOf qs) else 0

/-- Python `min(list)` over a non-empty list. -/
def listMin : List ℚ → ℚ
  | [] => 0
  | q :: qs => qs.foldl min q

/-- Python `max(list)` over a non-empty list. -/
def listMax : List ℚ → ℚ
  | [] => 0
  | q :: qs => qs.foldl max q

structure Summary where
  code : String
  name : String
  count : ℕ
  mean : ℚ
  stddev : ℝ
  min : ℚ
  max : ℚ
  latest_date : String
  latest_qty : ℚ

/-- `get_statistics` (lines 180–214): one summary per item with at least one
observation; items whose record list is empty are skipped. -/
noncomputable def get_statistics (data : Store) : List Summary :=
  data.filterMap (fun p =>
    if p.2.records = [] then none
    else
      some { code := p.1
             name := p.2.name
             count := (quantsOf p.2).length
             mean := meanOf (quantsOf p.2)
             stddev := stddevOf (quantsOf p.2)
             min := listMin (quantsOf p.2)
             max := listMax (quantsOf p.2)
             latest_date := (latestOf p.2.records).date
             latest_qty := (latestOf p.2.records).quantity })

theorem foldl_min_le (l : List ℚ) : ∀ a : ℚ, l.foldl min a ≤ a ∧ ∀ q ∈ l, l.foldl min a ≤ q := by
  induction l with
  | nil =>
    intro a
    exact ⟨le_refl a, by simp⟩
  | cons b l ih =>
    intro a
    rw [List.foldl_cons]
    rcases ih (min a b) with ⟨h1, h2⟩
    refine ⟨le_trans h1 (min_le_left a b), ?_⟩
    intro q hq
    rcases List.mem_cons.mp hq with rfl | hq'
    · exact le_trans h1 (min_le_right a q)
    · exact h2 q hq'

theorem foldl_min_mem (l : List ℚ) : ∀ a : ℚ, l.foldl min a = a ∨ l.foldl min a ∈ l := by
  induction l with
  | nil => intro a; exact Or.inl rfl
  | cons b l ih =>
    intro a
    rw [List.foldl_cons]
    rcases ih (min a b) with h | h
    · rcases min_choice a b with hm | hm
      · exact Or.inl (h.trans hm)
      · right
        rw [h, hm]
        exact List.mem_cons_self b l
    · exact Or.inr (List.mem_cons_of_mem _ h)

theorem foldl_max_le (l : List ℚ) : ∀ a : ℚ, a ≤ l.foldl max a ∧ ∀ q ∈ l, q ≤ l.foldl max a := by
  induction l with
  | nil =>
    intro a
    exact ⟨le_refl a, by simp⟩
  | cons b l ih =>
    intro a
    rw [List.foldl_cons]
    rcases ih (max a b) with ⟨h1, h2⟩
    refine ⟨le_trans (le_max_left a b) h1, ?_⟩
    intro q hq
    rcases List.mem_cons.mp hq with rfl | hq'
    · exact le_trans (le_max_right a q) h1
    · exact h2 q hq'

theorem foldl_max_mem (l : List ℚ) : ∀ a : ℚ, l.foldl max a = a ∨ l.foldl max a ∈ l := by
  induction l with
  | nil => intro a; exact Or.inl rfl
  | cons b l ih =>
    intro a
    rw [List.foldl_cons]
    rcases ih (max a b) with h | h
    · rcases max_choice a b with hm | hm
      · exact Or.inl (h.trans hm)
      · right
        rw [h, hm]
        exact List.mem_cons_self b l
    · exact Or.inr (List.mem_cons_of_mem _ h)

theorem listMin_spec (qs : List ℚ) (h : qs ≠ []) :
    listMin qs ∈ qs ∧ ∀ q ∈ qs, listMin qs ≤ q := by
  cases qs with
  | nil => exact absurd rfl h
  | cons q rest =>
    constructor
    · show rest.foldl min q ∈ q :: rest
      rcases foldl_min_mem rest q with h' | h'
      · rw [h']
        exact List.mem_cons_self q rest
      · exact List.mem_cons_of_mem _ h'
    · intro x hx
      rcases List.mem_cons.mp hx with rfl | hx'
      · exact (foldl_min_le rest x).1
      · exact (foldl_min_le rest q).2 x hx'

theorem listMax_spec (qs : List ℚ) (h : qs ≠ []) :
    listMax qs ∈ qs ∧ ∀ q ∈ qs, q ≤ listMax qs := by
  cases qs with
  | nil => exact absurd rfl h
  | cons q rest =>
    constructor
    · show rest.foldl max q ∈ q :: rest
      rcases foldl_max_mem rest q with h' | h'
      · rw [h']
        exact List.mem_cons_self q rest
      · exact List.mem_cons_of_mem _ h'
    · intro x hx
      rcases List.mem_cons.mp hx with rfl | hx'
      · exact (foldl_max_le rest x).1
      · exact (foldl_max_le rest q).2 x hx'

/-- C4: for an item with `n ≥ 1` observations the summary has
`mean = (sum of quantities) / n`, sample standard deviation
`sqrt(sum((q - mean)^2) / (n - 1))` when `n ≥ 2` and exactly `0` when
`n = 1`, and min/max ranging over the observed quantities; in particular
quantities `[10, 20, 30]` give mean `20`, stddev `10`, min `10`, max `30`. -/
theorem c4_statistics_summary (data : Store) (c : String) (e : Entry)
    (h₁ : alookup data c = some e) (h₂ : e.records ≠ []) :
    ∃ s ∈ get_statistics data,
      s.code = c
      ∧ s.count = e.records.length
      ∧ s.mean = (quantsOf e).sum / (e.records.length : ℚ)
      ∧ (2 ≤ e.records.length →
          s.stddev = Real.sqrt ((((((quantsOf e).map
            (fun q => (q - meanOf (quantsOf e)) ^ 2)).sum)
              / ((e.records.length : ℚ) - 1) : ℚ) : ℝ)))
      ∧ (e.records.length = 1 → s.stddev = 0)
      ∧ (s.min ∈ quantsOf e ∧ ∀ q ∈ quantsOf e, s.min ≤ q)
      ∧ (s.max ∈ quantsOf e ∧ ∀ q ∈ quantsOf e, q ≤ s.max)
      ∧ (quantsOf e = [10, 20, 30] →
          s.mean = 20 ∧ s.stddev = 10 ∧ s.min = 10 ∧ s.max = 30) := by
  have hmem : (c, e) ∈ data := mem_of_alookup_eq_some data c e h₁
  have hq : quantsOf e ≠ [] := by
    simp only [quantsOf, ne_eq, List.map_eq_nil_iff]
    exact h₂
  have hlen : (quantsOf e).length = e.records.length := by
    simp [quantsOf]
  refine ⟨_, List.mem_filterMap.mpr ⟨(c, e), hmem, by rw [if_neg h₂]⟩, rfl, hlen, ?_, ?_, ?_, ?_, ?_, ?_⟩
  · simp only [meanOf, hlen]
  · intro hn
    simp only [stddevOf, varOf, hlen]
    rw [if_pos hn]
  · intro h1
    simp only [stddevOf, hlen, h1]
    norm_num
  · exact listMin_spec (quantsOf e) hq
  · exact listMax_spec (quantsOf e) hq
  · intro hq3
    have hl3 : e.records.length = 3 := by
      rw [← hlen, hq3]
      rfl
    have hmean : meanOf (quantsOf e) = 20 := by
      rw [hq3]
      norm_num [meanOf, List.sum_cons, List.sum_nil]
    have hvar : varOf (quantsOf e) = 100 := by
      rw [varOf, hq3]
      norm_num [meanOf, List.sum_cons, List.sum_nil, List.map_cons, List.map_nil]
    refine ⟨hmean, ?_, ?_, ?_⟩
    · simp only [stddevOf, hlen, hl3, hvar]
      norm_num
      rw [show (100 : ℝ) = (10 : ℝ) ^ 2 by norm_num]
      rw [Real.sqrt_sq (by norm_num : (0 : ℝ) ≤ 10)]
    · rw [hq3]
      norm_num [listMin, min_def]
    · rw [hq3]
      norm_num [listMax, max_def]

/-- Concrete instance of C4 (the statistics example of the specification):
an item with quantities 10, 20, 30. -/
theorem c4_witness :
    ∃ s ∈ get_statistics
        [("A", ⟨"x", [⟨"2026-01-01", 10⟩, ⟨"2026-01-02", 20⟩, ⟨"2026-01-03", 30⟩]⟩)],
      s.code = "A"
      ∧ s.count = (Entry.records ⟨"x", [⟨"2026-01-01", 10⟩, ⟨"2026-01-02", 20⟩,
          ⟨"2026-01-03", 30⟩]⟩).length
      ∧ s.mean = (quantsOf ⟨"x", [⟨"2026-01-01", 10⟩, ⟨"2026-01-02", 20⟩,
          ⟨"2026-01-03", 30⟩]⟩).sum / ((Entry.records ⟨"x", [⟨"2026-01-01", 10⟩,
          ⟨"2026-01-02", 20⟩, ⟨"2026-01-03", 30⟩]⟩).length : ℚ)
      ∧ (2 ≤ (Entry.records ⟨"x", [⟨"2026-01-01", 10⟩, ⟨"2026-01-02", 20⟩,
          ⟨"2026-01-03", 30⟩]⟩).length →
          s.stddev = Real.sqrt ((((((quantsOf ⟨"x", [⟨"2026-01-01", 10⟩, ⟨"2026-01-02", 20⟩,
            ⟨"2026-01-03", 30⟩]⟩).map
            (fun q => (q - meanOf (quantsOf ⟨"x", [⟨"2026-01-01", 10⟩, ⟨"2026-01-02", 20⟩,
              ⟨"2026-01-03", 30⟩]⟩)) ^ 2)).sum)
              / (((Entry.records ⟨"x", [⟨"2026-01-01", 10⟩, ⟨"2026-01-02", 20⟩,
                ⟨"2026-01-03", 30⟩]⟩).length : ℚ) - 1) : ℚ) : ℝ)))
      ∧ ((Entry.records ⟨"x", [⟨"2026-01-01", 10⟩, ⟨"2026-01-02", 20⟩,
          ⟨"2026-01-03", 30⟩]⟩).length = 1 → s.stddev = 0)
      ∧ (s.min ∈ quantsOf ⟨"x", [⟨"2026-01-01", 10⟩, ⟨"2026-01-02", 20⟩, ⟨"2026-01-03", 30⟩]⟩
          ∧ ∀ q ∈ quantsOf ⟨"x", [⟨"2026-01-01", 10⟩, ⟨"2026-01-02", 20⟩,
              ⟨"2026-01-03", 30⟩]⟩, s.min ≤ q)
      ∧ (s.max ∈ quantsOf ⟨"x", [⟨"2026-01-01", 10⟩, ⟨"2026-01-02", 20⟩, ⟨"2026-01-03", 30⟩]⟩
          ∧ ∀ q ∈ quantsOf ⟨"x", [⟨"2026-01-01", 10⟩, ⟨"2026-01-02", 20⟩,
              ⟨"2026-01-03", 30⟩]⟩, q ≤ s.max)
      ∧ (quantsOf ⟨"x", [⟨"2026-01-01", 10⟩, ⟨"2026-01-02", 20⟩, ⟨"2026-01-03", 30⟩]⟩
            = [10, 20, 30] →
          s.mean = 20 ∧ s.stddev = 10 ∧ s.min = 10 ∧ s.max = 30) :=
  c4_statistics_summary
    [("A", ⟨"x", [⟨"2026-01-01", 10⟩, ⟨"2026-01-02", 20⟩, ⟨"2026-01-03", 30⟩]⟩)]
    "A" ⟨"x", [⟨"2026-01-01", 10⟩, ⟨"2026-01-02", 20⟩, ⟨"2026-01-03", 30⟩]⟩
    (by decide) (by decide)

/-! ## Operation sequences on the store (C10) -/

/-- The mutating operations of `UsageHistory`: batch upsert (`add_records`),
single-observation deletion (`delete_record`) and full clear (`clear_all`). -/
inductive HistOp where
  | addRecords (rows : List SchRow) (recordDate : String) : HistOp
  | deleteRecord (code recordDate : String) : HistOp
  | clearAll : HistOp
deriving DecidableEq

def applyOp (data : Store) : HistOp → Store
  | .addRecords rows d => add_records data rows d
  | .deleteRecord c d => delete_record data c d
  | .clearAll => clear_all data

/-- Running a sequence of operations from the empty store. -/
def runOps (ops : List HistOp) : Store := ops.foldl applyOp []

theorem upsert_preserves_inv (data : Store) (rawCode name : String) (qty : ℚ) (d : String)
    (h : ∀ p ∈ data, p.2.records ≠ []) :
    ∀ p ∈ upsert data rawCode name qty d, p.2.records ≠ [] := by
  intro p hp
  by_cases hc : pytrim rawCode = ""
  · simp only [upsert, if_pos hc] at hp
    exact h p hp
  · simp only [upsert, if_neg hc] at hp
    rcases mem_dictInsert _ _ _ _ hp with h' | h'
    · exact h p h'
    · rw [h']
      exact upsertObs_ne_nil _ _ _

theorem add_records_preserves_inv (rows : List SchRow) :
    ∀ (data : Store) (d : String), (∀ p ∈ data, p.2.records ≠ []) →
      ∀ p ∈ add_records data rows d, p.2.records ≠ [] := by
  induction rows with
  | nil =>
    intro data d h
    exact h
  | cons r rs ih =>
    intro data d h
    exact ih (upsert data r.rawCode r.name (to_number r.qty) d) d
      (upsert_preserves_inv data r.rawCode r.name (to_number r.qty) d h)

theorem delete_record_preserves_inv (data : Store) (code d : String)
    (h : ∀ p ∈ data, p.2.records ≠ []) :
    ∀ p ∈ delete_record data code d, p.2.records ≠ [] := by
  intro p hp
  unfold delete_record at hp
  split at hp
  · exact h p hp
  · rename_i e he
    split at hp
    · exact h p (mem_eraseKey _ _ _ hp)
    · rename_i hr
      rcases mem_dictInsert _ _ _ _ hp with h' | h'
      · exact h p h'
      · rw [h']
        exact hr

theorem runOps_inv_aux :
    ∀ (ops : List HistOp) (data : Store), (∀ p ∈ data, p.2.records ≠ []) →
      ∀ p ∈ ops.foldl applyOp data, p.2.records ≠ [] := by
  intro ops
  induction ops with
  | nil =>
    intro data h
    exact h
  | cons op ops ih =>
    intro data h
    rw [List.foldl_cons]
    refine ih (applyOp data op) ?_
    cases op with
    | addRecords rows d => exact add_records_preserves_inv rows data d h
    | deleteRecord c d => exact delete_record_preserves_inv data c d h
    | clearAll => intro p hp; exact absurd hp (List.not_mem_nil p)

/-- C10: after any sequence of `add_records`, `delete_record` and `clear_all`
operations starting from the empty store, every code in the store has a
non-empty observation list; consequently every statistics summary has
`count ≥ 1` and the mean's divisor is non-zero. -/
theorem c10_nonempty_records_invariant (ops : List HistOp) :
    (∀ p ∈ runOps ops, p.2.records ≠ [])
    ∧ (∀ s ∈ get_statistics (runOps ops), 1 ≤ s.count ∧ (s.count : ℚ) ≠ 0) := by
  refine ⟨runOps_inv_aux ops [] (by intro p hp; exact absurd hp (List.not_mem_nil p)), ?_⟩
  intro s hs
  rcases List.mem_filterMap.mp hs with ⟨p, _, hf⟩
  by_cases hr : p.2.records = []
  · rw [if_pos hr] at hf
    exact Option.noConfusion hf
  · rw [if_neg hr] at hf
    cases hf
    have hlen : 0 < p.2.records.length := List.length_pos.mpr hr
    constructor
    · simpa [quantsOf] using hlen
    · have hne : (quantsOf p.2).length ≠ 0 := by
        simp only [quantsOf, List.length_map]
        omega
      exact_mod_cast hne

/-- Concrete instance of C10: one batch upsert creates an entry whose
observation list is non-empty. -/
theorem c10_witness :
    ((("A" : String), (⟨"x", [⟨"2026-01-01", 3⟩]⟩ : Entry)).2.records ≠ []) := by
  refine (c10_nonempty_records_invariant
    [HistOp.addRecords [⟨"A", "x", none, some "3"⟩] "2026-01-01"]).1
    ("A", ⟨"x", [⟨"2026-01-01", 3⟩]⟩) ?_
  decide

theorem alookup_eraseKey_self {α : Type} (d : AListD α) (k : String)
    (hnd : (keysOf d).Nodup) : alookup (eraseKey d k) k = none := by
  induction d with
  | nil => rfl
  | cons p ps ih =>
    have hx : p.1 ∉ keysOf ps ∧ (keysOf ps).Nodup := by
      rw [keysOf_cons, List.nodup_cons] at hnd
      exact hnd
    by_cases hp : p.1 = k
    · simp only [eraseKey, if_pos hp]
      rw [alookup_eq_none_iff, ← hp]
      exact hx.1
    · simp only [eraseKey, if_neg hp, alookup, if_neg hp]
      exact ih hx.2

theorem allDates_eraseKey_toFinset (code d nm : String) (q : ℚ) :
    ∀ data : Store, (keysOf data).Nodup →
      alookup data code = some ⟨nm, [⟨d, q⟩]⟩ →
      (∀ p ∈ data, p.1 ≠ code → ∀ r ∈ p.2.records, r.date ≠ d) →
      (allDates (eraseKey data code)).toFinset = (allDates data).toFinset.erase d
      ∧ d ∈ (allDates data).toFinset := by
  intro data
  induction data with
  | nil =>
    intro _ h _
    simp [alookup] at h
  | cons p ps ih =>
    intro hnd h hother
    have hx : p.1 ∉ keysOf ps ∧ (keysOf ps).Nodup := by
      rw [keysOf_cons, List.nodup_cons] at hnd
      exact hnd
    by_cases hp : p.1 = code
    · have hp2 : p.2 = ⟨nm, [⟨d, q⟩]⟩ := by
        simp only [alookup, if_pos hp, Option.some.injEq] at h
        exact h
      have hdd : d ∉ allDates ps := by
        intro hmem
        simp only [allDates] at hmem
        rcases List.mem_flatten.mp hmem with ⟨l, hl, hdl⟩
        rcases List.mem_map.mp hl with ⟨p', hp', rfl⟩
        rcases List.mem_map.mp hdl with ⟨r, hr, hrd⟩
        have hpne : p'.1 ≠ code := by
          intro hcon
          exact hx.1 (by rw [hp, ← hcon]; exact List.mem_map.mpr ⟨p', hp', rfl⟩)
        exact hother p' (List.mem_cons_of_mem _ hp') hpne r hr hrd
      have hAD : allDates (p :: ps) = d :: allDates ps := by
        simp [allDates, hp2]
      have he : eraseKey (p :: ps) code = ps := by
        simp [eraseKey, hp]
      constructor
      · rw [he, hAD, List.toFinset_cons,
          Finset.erase_insert (fun hm => hdd (List.mem_toFinset.mp hm))]
      · rw [hAD, List.toFinset_cons]
        exact Finset.mem_insert_self d _
    · have hh : alookup ps code = some ⟨nm, [⟨d, q⟩]⟩ := by
        simpa [alookup, hp] using h
      have hother' : ∀ p' ∈ ps, p'.1 ≠ code → ∀ r ∈ p'.2.records, r.date ≠ d :=
        fun p' hp' => hother p' (List.mem_cons_of_mem _ hp')
      rcases ih hx.2 hh hother' with ⟨hT, hdm⟩
      have hdP : d ∉ (p.2.records.map Obs.date).toFinset := by
        rw [List.mem_toFinset]
        intro hm
        rcases List.mem_map.mp hm with ⟨r, hr, hrd⟩
        exact hother p (List.mem_cons_self _ _) hp r hr hrd
      have he : eraseKey (p :: ps) code = p :: eraseKey ps code := by
        simp [eraseKey, hp]
      have hAD1 : allDates (p :: ps) = p.2.records.map Obs.date ++ allDates ps := rfl
      have hAD2 : allDates (p :: eraseKey ps code)
          = p.2.records.map Obs.date ++ allDates (eraseKey ps code) := rfl
      constructor
      · rw [he, hAD2, List.toFinset_append, hT, hAD1, List.toFinset_append,
          Finset.erase_union_distrib, Finset.erase_eq_of_not_mem hdP]
      · rw [hAD1, List.toFinset_append]
        exact Finset.mem_union_right _ hdm

theorem delete_record_eq_of_some (data : Store) (code d : String) (e : Entry)
    (he : alookup data code = some e) :
    delete_record data code d =
      if e.records.filter (fun r => !(r.date == d)) = [] then eraseKey data code
      else dictInsert data code ⟨e.name, e.records.filter (fun r => !(r.date == d))⟩ := by
  simp only [delete_record, he]

/-- C8: `delete_record` removes the observation at the given date for the
given code (keeping the rest); when that observation was the code's only
one, the code is removed from the store entirely and the distinct-date
count `get_record_count` decreases by one (assuming, as the claim's
"accordingly" implies, that no other item has an observation at that
date). -/
theorem c8_delete_only_observation (data : Store) (code d : String)
    (hnd : (keysOf data).Nodup) :
    (∀ e : Entry, alookup data code = some e →
        e.records.filter (fun r => !(r.date == d)) ≠ [] →
        alookup (delete_record data code d) code
          = some ⟨e.name, e.records.filter (fun r => !(r.date == d))⟩)
    ∧ (∀ e : Entry, alookup data code = some e →
        e.records.filter (fun r => !(r.date == d)) = [] →
        alookup (delete_record data code d) code = none)
    ∧ (∀ (nm : String) (q : ℚ), alookup data code = some ⟨nm, [⟨d, q⟩]⟩ →
        (∀ p ∈ data, p.1 ≠ code → ∀ r ∈ p.2.records, r.date ≠ d) →
        alookup (delete_record data code d) code = none
        ∧ get_record_count (delete_record data code d) + 1 = get_record_count data) := by
  refine ⟨?_, ?_, ?_⟩
  · intro e he hne
    rw [delete_record_eq_of_some data code d e he, if_neg hne, alookup_dictInsert, if_pos rfl]
  · intro e he hnil
    rw [delete_record_eq_of_some data code d e he, if_pos hnil]
    exact alookup_eraseKey_self data code hnd
  · intro nm q h hother
    have hfilter : (Entry.mk nm [⟨d, q⟩]).records.filter (fun r => !(r.date == d)) = [] := by
      simp
    have hdel : delete_record data code d = eraseKey data code := by
      rw [delete_record_eq_of_some data code d ⟨nm, [⟨d, q⟩]⟩ h, if_pos hfilter]
    rcases allDates_eraseKey_toFinset code d nm q data hnd h hother with ⟨hT, hdm⟩
    refine ⟨by rw [hdel]; exact alookup_eraseKey_self data code hnd, ?_⟩
    rw [hdel]
    show (allDates (eraseKey data code)).toFinset.card + 1 = (allDates data).toFinset.card
    rw [hT]
    exact Finset.card_erase_add_one hdm

/-- Concrete instance of C8: deleting the only observation of code A removes
A entirely and drops the distinct-date count from 2 to 1. -/
theorem c8_witness :
    alookup (delete_record [("A", ⟨"x", [⟨"2026-01-01", 5⟩]⟩),
        ("B", ⟨"y", [⟨"2026-01-02", 7⟩]⟩)] "A" "2026-01-01") "A" = none
    ∧ get_record_count (delete_record [("A", ⟨"x", [⟨"2026-01-01", 5⟩]⟩),
        ("B", ⟨"y", [⟨"2026-01-02", 7⟩]⟩)] "A" "2026-01-01") + 1
      = get_record_count [("A", ⟨"x", [⟨"2026-01-01", 5⟩]⟩),
        ("B", ⟨"y", [⟨"2026-01-02", 7⟩]⟩)] :=
  (c8_delete_only_observation [("A", ⟨"x", [⟨"2026-01-01", 5⟩]⟩),
    ("B", ⟨"y", [⟨"2026-01-02", 7⟩]⟩)] "A" "2026-01-01" (by decide)).2.2 "x" 5
    (by decide) (by decide)

/-! ## Persistence (`UsageHistory._save` / `_load`, lines 134–145)

`_save` writes `json.dump(self.data)`; `_load` returns `json.load(f)`.
The JSON text layer is the Python standard library (an external
collaborator); it is modelled at the level of JSON trees: `encodeStore`
maps the in-memory store to the JSON value that `json.dump` serialises,
and `decodeStore` reads such a value back into the store shape that the
rest of `UsageHistory` accesses (`data[code]["name"]`, `...["records"]`,
`rec["date"]`, `rec["quantity"]`). -/

inductive Json where
  | str : String → Json
  | num : ℚ → Json
  | arr : List Json → Json
  | obj : List (String × Json) → Json

/-- One element of the `records` array as serialised (lines 110–121). -/
def encodeRec (r : Obs) : Json :=
  .obj [("date", .str r.date), ("quantity", .num r.quantity)]

/-- One item entry as serialised. -/
def encodeEntry (e : Entry) : Json :=
  .obj [("name", .str e.name), ("records", .arr (e.records.map encodeRec))]

/-- The whole persisted object of `_save` (lines 143–145). -/
def encodeStore (s : Store) : Json :=
  .obj (s.map (fun p => (p.1, encodeEntry p.2)))

def decodeRec : Json → Option Obs
  | .obj [(k1, .str d), (k2, .num q)] =>
    if k1 = "date" ∧ k2 = "quantity" then some ⟨d, q⟩ else none
  | _ => none

def decodeRecList (aux : Json → Option Obs) : List Json → Option (List Obs)
  | [] => some []
  | j :: js =>
    match aux j, decodeRecList aux js with
    | some r, some rs => some (r :: rs)
    | _, _ => none

def decodeEntry : Json → Option Entry
  | .obj [(k1, .str n), (k2, .arr rs)] =>
    if k1 = "name" ∧ k2 = "records" then
      match decodeRecList decodeRec rs with
      | some obs => some ⟨n, obs⟩
      | none => none
    else none
  | _ => none

def decodeStoreKVs (aux : Json → Option Entry) : List (String × Json) → Option Store
  | [] => some []
  | p :: ps =>
    match aux p.2, decodeStoreKVs aux ps with
    | some e, some s => some ((p.1, e) :: s)
    | _, _ => none

/-- Reading a persisted JSON value back into the store shape. -/
def decodeStore : Json → Option Store
  | .obj kvs => decodeStoreKVs decodeEntry kvs
  | _ => none

theorem decodeRec_encodeRec (r : Obs) : decodeRec (encodeRec r) = some r := by
  simp [encodeRec, decodeRec]

theorem decodeRecList_map_encodeRec (rs : List Obs) :
    decodeRecList decodeRec (rs.map encodeRec) = some rs := by
  induction rs with
  | nil => rfl
  | cons r rs ih =>
    simp only [List.map_cons, decodeRecList, decodeRec_encodeRec, ih]

theorem decodeEntry_encodeEntry (e : Entry) : decodeEntry (encodeEntry e) = some e := by
  simp [encodeEntry, decodeEntry, decodeRecList_map_encodeRec]

/-- C6: persisting a store and reading it back is the identity; in
particular, for every item code the display name and the set of
(date, quantity) observation pairs are preserved. -/
theorem c6_persistence_round_trip (s : Store) :
    decodeStore (encodeStore s) = some s
    ∧ (∀ s₂ : Store, decodeStore (encodeStore s) = some s₂ →
        ∀ c : String,
          (alookup s₂ c).map Entry.name = (alookup s c).map Entry.name
          ∧ (alookup s₂ c).map (fun e => (e.records.map (fun r => (r.date, r.quantity))).toFinset)
            = (alookup s c).map (fun e => (e.records.map (fun r => (r.date, r.quantity))).toFinset)) := by
  have hmain : decodeStore (encodeStore s) = some s := by
    simp only [encodeStore, decodeStore]
    induction s with
    | nil => rfl
    | cons p ps ih =>
      simp only [List.map_cons, decodeStoreKVs, decodeEntry_encodeEntry, ih]
  refine ⟨hmain, ?_⟩
  intro s₂ h₂ c
  rw [hmain] at h₂
  cases h₂
  exact ⟨rfl, rfl⟩

/-- Concrete instance of C6: a two-item store survives the round trip. -/
theorem c6_witness :
    ∀ c : String,
      (alookup ((decodeStore (encodeStore [("A", ⟨"x", [⟨"2026-01-01", 5⟩]⟩),
          ("B", ⟨"y", [⟨"2026-01-02", 7⟩, ⟨"2026-01-03", 8⟩]⟩)])).getD []) c).map Entry.name
        = (alookup [("A", ⟨"x", [⟨"2026-01-01", 5⟩]⟩),
          ("B", ⟨"y", [⟨"2026-01-02", 7⟩, ⟨"2026-01-03", 8⟩]⟩)] c).map Entry.name := by
  intro c
  have h := c6_persistence_round_trip [("A", ⟨"x", [⟨"2026-01-01", 5⟩]⟩),
    ("B", ⟨"y", [⟨"2026-01-02", 7⟩, ⟨"2026-01-03", 8⟩]⟩)]
  have h2 := h.2 _ h.1 c
  rw [h.1]
  exact h2.1

/-- `UsageHistory._load` (lines 134–141), with the filesystem and the JSON
text parser as external parameters: `file = none` models a missing file;
`parse` models `json.load`, returning `none` when it raises.  A missing
file returns the empty store before parsing is attempted; a parse failure
is swallowed by the bare `except` and also yields the empty store. -/
def loadStore (parse : String → Option Store) (file : Option String) : Store :=
  match file with
  | none => []
  | some txt =>
    match parse txt with
    | none => []
    | some s => s

/-- C7: constructing the store with a missing persisted file yields the
empty store, and an unparsable file also yields the empty store; in both
cases `loadStore` returns normally (it is total), so no error reaches the
caller. -/
theorem c7_load_missing_or_corrupt (parse : String → Option Store) :
    loadStore parse none = []
    ∧ ∀ txt : String, parse txt = none → loadStore parse (some txt) = [] := by
  refine ⟨rfl, ?_⟩
  intro txt h
  simp only [loadStore, h]

/-- Concrete instance of C7: a parser that fails on the given content still
produces the empty store. -/
theorem c7_witness : loadStore (fun _ => none) (some "corrupt json") = [] :=
  (c7_load_missing_or_corrupt (fun _ => none)).2 "corrupt json" rfl
